import Mathlib

/-!
Shallow embedding of the `measure_health_rs` metrics library (src/lib.rs)
and verification of its specification claims.

Modelling conventions:
* `u32` values are `Nat` taken modulo `2 ^ 32` wherever the source performs
  arithmetic (release-mode Rust wraps on overflow).
* Monotonic (`Instant`) and wall-clock (`SystemTime`) timestamps are `Nat`
  values measured in whole seconds; each public operation receives the pair
  `(nowMono, nowWall)` standing for the clock reads performed during that call.
  `Instant::duration_since(..).as_secs()` becomes saturating `Nat` subtraction.
* Code paths that panic in the source (missing ring index, missing map entry)
  return `none`; successful paths return `some`.
* The locks (`Mutex`, `RwLock`) serialize operations; the model is the
  sequential semantics of one serialized operation at a time, with the global
  atomic handle counter `NEXT_MEASURE_HANDLE` threaded as explicit state.
-/

namespace MeasureHealth

/-- Modulus of the 32-bit unsigned accumulators (`u32`). -/
def U32MOD : Nat := 2 ^ 32

/-- The `Rollup` struct (one time bucket): running total, sample count,
monotonic window start (`start_ticks`), wall-clock window start
(`start_time`) and the three boolean flags. -/
structure Rollup where
  total : Nat
  sample_count : Nat
  start_ticks : Nat
  start_time : Nat
  active : Bool
  first : Bool
  whole : Bool
  deriving DecidableEq, Repr

namespace Rollup

/-- `Rollup::new`: zeroed accumulators, clocks stamped to now, flags false. -/
def new (nowMono nowWall : Nat) : Rollup :=
  { total := 0, sample_count := 0, start_ticks := nowMono, start_time := nowWall,
    active := false, first := false, whole := false }

/-- `Rollup::reset_rollup`: zero both accumulators, restamp both clocks,
clear the three flags. -/
def reset_rollup (_r : Rollup) (nowMono nowWall : Nat) : Rollup :=
  { total := 0, sample_count := 0, start_ticks := nowMono, start_time := nowWall,
    active := false, first := false, whole := false }

/-- `Rollup::add_value`: `sample_count += 1; total += value` in `u32`. -/
def add_value (r : Rollup) (value : Nat) : Rollup :=
  { r with sample_count := (r.sample_count + 1) % U32MOD,
           total := (r.total + value) % U32MOD }

end Rollup

/-- The `Rollups` struct: one ring of buckets sharing an interval length. -/
structure Rollups where
  current_rollup_index : Nat
  interval_seconds : Nat
  rollups : List Rollup
  deriving DecidableEq, Repr

namespace Rollups

/-- `Rollups::new`: `rollup_count` fresh buckets, index 0. -/
def new (interval_seconds rollup_count nowMono nowWall : Nat) : Rollups :=
  { interval_seconds := interval_seconds, current_rollup_index := 0,
    rollups := List.replicate rollup_count (Rollup.new nowMono nowWall) }

/-- `Rollups::add_value`: look up the current bucket; if the monotonic time
elapsed since its `start_ticks` strictly exceeds `interval_seconds`, advance
the index by one modulo the ring length, reset the bucket now at the new
index and use it; finally add the value to the chosen bucket.  A missing
index (source: panic) yields `none`. -/
def add_value (rs : Rollups) (value nowMono nowWall : Nat) : Option Rollups :=
  match rs.rollups.get? rs.current_rollup_index with
  | none => none
  | some rollup =>
    if nowMono - rollup.start_ticks > rs.interval_seconds then
      let newIndex := (rs.current_rollup_index + 1) % rs.rollups.length
      match rs.rollups.get? newIndex with
      | none => none
      | some r2 =>
        some { rs with current_rollup_index := newIndex,
                       rollups := rs.rollups.set newIndex
                         (((r2.reset_rollup nowMono nowWall)).add_value value) }
    else
      some { rs with rollups := rs.rollups.set rs.current_rollup_index
                       (rollup.add_value value) }

end Rollups

/-- The `RollupIntervals` struct: the fixed collection of rings built by
`RollupIntervals::new`. -/
structure RollupIntervals where
  rollup_intervals : List Rollups
  deriving DecidableEq, Repr

namespace RollupIntervals

/-- `RollupIntervals::new`: pushes `Rollups::new(60, 60)`,
`Rollups::new(60*60, 24)` and `Rollups::new(60*60*24, 14)`. -/
def new (nowMono nowWall : Nat) : RollupIntervals :=
  { rollup_intervals :=
      [Rollups.new 60 60 nowMono nowWall,
       Rollups.new (60 * 60) 24 nowMono nowWall,
       Rollups.new (60 * 60 * 24) 14 nowMono nowWall] }

/-- Helper running `Rollups.add_value` on each ring in order, failing if any
ring fails (source: the loop with a panic on a missing ring). -/
def addValueRings : List Rollups → Nat → Nat → Nat → Option (List Rollups)
  | [], _, _, _ => some []
  | rs :: rest, value, nowMono, nowWall =>
    match rs.add_value value nowMono nowWall, addValueRings rest value nowMono nowWall with
    | some rs', some rest' => some (rs' :: rest')
    | _, _ => none

/-- `RollupIntervals::add_value`: fan the value out to every ring. -/
def add_value (ri : RollupIntervals) (value nowMono nowWall : Nat) :
    Option RollupIntervals :=
  (addValueRings ri.rollup_intervals value nowMono nowWall).map
    (fun l => { rollup_intervals := l })

end RollupIntervals

/-- Observable ring configuration: (interval seconds, bucket count). -/
def ringConfig (rs : Rollups) : Nat × Nat :=
  (rs.interval_seconds, rs.rollups.length)

/-- C1 counterexample support and amended statement use `ringConfigs`. -/
def ringConfigs (ri : RollupIntervals) : List (Nat × Nat) :=
  ri.rollup_intervals.map ringConfig

/-- C1 claimed configuration: 60 buckets of 1 s, 24 of 3600 s, 14 of 86400 s. -/
def claimedConfig : List (Nat × Nat) := [(1, 60), (3600, 24), (86400, 14)]

/-- One mutating bucket operation: `add_value v`, or `reset_rollup` at the
given clock readings. -/
inductive BOp where
  | add (v : Nat)
  | reset (nowMono nowWall : Nat)
  deriving DecidableEq, Repr

/-- Apply one bucket operation. -/
def applyBOp (r : Rollup) : BOp → Rollup
  | .add v => r.add_value v
  | .reset nM nW => r.reset_rollup nM nW

/-- Apply a sequence of bucket operations, left to right. -/
def applyBOps (r : Rollup) : List BOp → Rollup
  | [] => r
  | op :: rest => applyBOps (applyBOp r op) rest

/-- Number of `add` operations after the last `reset` of the sequence,
starting from `a` adds already pending. -/
def addsSinceReset (a : Nat) : List BOp → Nat
  | [] => a
  | .add _ :: rest => addsSinceReset (a + 1) rest
  | .reset _ _ :: rest => addsSinceReset 0 rest

/-- The concrete operation sequence refuting C8 as stated: one `add 1`
followed by `2 ^ 32 - 1` calls of `add 0`. -/
def c8ops : List BOp := BOp.add 1 :: List.replicate (U32MOD - 1) (BOp.add 0)

/-! ### The measure registry (`MeasureInner`, `Measure`, `MeasuresInner`,
`Measures`).  The `Mutex` around `MeasureInner` and the registry `RwLock`
serialize operations; the model is the sequential semantics of serialized
operations, with the process-wide atomic counter `NEXT_MEASURE_HANDLE`
threaded alongside as the explicit argument `ctr`. -/

/-- `MeasureInner`: a named aggregator (the `Measure` wrapper only adds the
mutex). -/
structure MeasureInner where
  name : String
  intervals : RollupIntervals
  deriving DecidableEq, Repr

/-- `MeasureInner::new` / `Measure::new`. -/
def MeasureInner.new (name : String) (nowMono nowWall : Nat) : MeasureInner :=
  { name := name, intervals := RollupIntervals.new nowMono nowWall }

/-- `MeasureInner::add_value` / `Measure::add_value`. -/
def MeasureInner.add_value (m : MeasureInner) (value nowMono nowWall : Nat) :
    Option MeasureInner :=
  (m.intervals.add_value value nowMono nowWall).map
    (fun ri => { m with intervals := ri })

/-- Association-list lookup (model of `HashMap` lookup). -/
def lookupA {α β : Type} [DecidableEq α] : List (α × β) → α → Option β
  | [], _ => none
  | (k, v) :: rest, a => if k = a then some v else lookupA rest a

/-- Association-list in-place update of the first entry with the given key
(model of mutating a `HashMap` entry through `get_mut`). -/
def updateA {α β : Type} [DecidableEq α] : List (α × β) → α → β → List (α × β)
  | [], _, _ => []
  | (k, v) :: rest, a, b =>
    if k = a then (k, b) :: rest else (k, v) :: updateA rest a b

/-- Number of entries with the given key. -/
def countKey {α β : Type} [DecidableEq α] (l : List (α × β)) (a : α) : Nat :=
  (l.filter (fun p => p.1 = a)).length

/-- Number of entries with the given value. -/
def countVal {α β : Type} [DecidableEq β] (l : List (α × β)) (b : β) : Nat :=
  (l.filter (fun p => p.2 = b)).length

/-- The unknown-handle sentinel measure name (string literal in
`MeasuresInner::add_value`). -/
def unknown_handle_name : String := "measure_rollup::unknown_measure_handle_specified"

/-- The unknown-name sentinel measure name (string literal in
`MeasuresInner::add_value_by_name`). -/
def unknown_name_name : String := "measure_rollup::unknown_measure_name_specified"

/-- `MeasuresInner`: the `handle → Measure` and `name → handle` maps,
modelled as association lists. -/
structure MeasuresInner where
  measures : List (Nat × MeasureInner)
  measures_by_name : List (String × Nat)
  deriving DecidableEq, Repr

/-- `MeasuresInner::new`: both maps empty. -/
def MeasuresInner.new : MeasuresInner := { measures := [], measures_by_name := [] }

/-- `MeasuresInner::new_measure` with the global counter `ctr`: if the name
is absent, fetch-and-add the counter and insert into both maps; then return
the handle now found for the name (`none` models the final panic). -/
def MeasuresInner.new_measure (m : MeasuresInner) (ctr : Nat) (name : String)
    (nowMono nowWall : Nat) : Option (Nat × MeasuresInner × Nat) :=
  let st :=
    if (lookupA m.measures_by_name name).isSome then (m, ctr)
    else ({ measures := (ctr, MeasureInner.new name nowMono nowWall) :: m.measures,
            measures_by_name := (name, ctr) :: m.measures_by_name }, ctr + 1)
  match lookupA st.1.measures_by_name name with
  | some h => some (h, st.1, st.2)
  | none => none

/-- `MeasuresInner::exists` (named `existsName` here; `exists` clashes with
Lean vocabulary). -/
def MeasuresInner.existsName (m : MeasuresInner) (name : String) : Bool :=
  (lookupA m.measures_by_name name).isSome

/-- `MeasuresInner::get_handle` (`none` models the panic of indexing a
missing key). -/
def MeasuresInner.get_handle (m : MeasuresInner) (name : String) : Option Nat :=
  lookupA m.measures_by_name name

/-- `MeasuresInner::add_value`: record against the handle's measure, or, for
an unknown handle, create-or-get the unknown-handle sentinel measure via
`new_measure` and record the fixed value 1 against it. -/
def MeasuresInner.add_value (m : MeasuresInner) (ctr handle value nowMono nowWall : Nat) :
    Option (MeasuresInner × Nat) :=
  match lookupA m.measures handle with
  | some meas =>
    match meas.add_value value nowMono nowWall with
    | some meas' =>
      some ({ m with measures := updateA m.measures handle meas' }, ctr)
    | none => none
  | none =>
    match m.new_measure ctr unknown_handle_name nowMono nowWall with
    | some (uh, m1, ctr1) =>
      match lookupA m1.measures uh with
      | some um =>
        match um.add_value 1 nowMono nowWall with
        | some um' =>
          some ({ m1 with measures := updateA m1.measures uh um' }, ctr1)
        | none => none
      | none => none
    | none => none

/-- `MeasuresInner::add_value_by_name`: resolve the name and delegate to
`add_value`, or, for an unknown name, create-or-get the unknown-name
sentinel measure and record the fixed value 1 against it, returning without
creating a measure for `name`. -/
def MeasuresInner.add_value_by_name (m : MeasuresInner) (ctr : Nat) (name : String)
    (value nowMono nowWall : Nat) : Option (MeasuresInner × Nat) :=
  match lookupA m.measures_by_name name with
  | some handle => m.add_value ctr handle value nowMono nowWall
  | none =>
    match m.new_measure ctr unknown_name_name nowMono nowWall with
    | some (uh, m1, ctr1) =>
      match lookupA m1.measures uh with
      | some um =>
        match um.add_value 1 nowMono nowWall with
        | some um' =>
          some ({ m1 with measures := updateA m1.measures uh um' }, ctr1)
        | none => none
      | none => none
    | none => none

/-- `Measures::get_measure` (read-only; returns the shared measure). -/
def Measures.get_measure (m : MeasuresInner) (handle : Nat) : Option MeasureInner :=
  lookupA m.measures handle

/-- `Measures::new_measure` (outer wrapper): read-locked existence check,
then either the write-locked insert path or the read-locked `get_handle`. -/
def Measures.new_measure (m : MeasuresInner) (ctr : Nat) (name : String)
    (nowMono nowWall : Nat) : Option (Nat × MeasuresInner × Nat) :=
  if m.existsName name then
    match m.get_handle name with
    | some h => some (h, m, ctr)
    | none => none
  else
    m.new_measure ctr name nowMono nowWall

/-! ### Observers and wellformedness predicates -/

/-- A ring is sane when its current index is within its bucket list. -/
def RingSane (rs : Rollups) : Prop :=
  rs.current_rollup_index < rs.rollups.length

/-- A measure is sane when every one of its rings is. -/
def MeasureSane (mi : MeasureInner) : Prop :=
  ∀ rs ∈ mi.intervals.rollup_intervals, RingSane rs

/-- A registry is sane when every stored measure is. -/
def RegSane (m : MeasuresInner) : Prop :=
  ∀ p ∈ m.measures, MeasureSane p.2

/-- Every name entry's handle resolves in the handle map. -/
def ByNameConsistent (m : MeasuresInner) : Prop :=
  ∀ p ∈ m.measures_by_name, (lookupA m.measures p.2).isSome

/-- C7's mutual-consistency property: every handle appearing as a value of
the name map has an entry in the handle map, and every key of the handle
map appears as the value of exactly one name. -/
def MapsConsistent (m : MeasuresInner) : Prop :=
  (∀ p ∈ m.measures_by_name, (lookupA m.measures p.2).isSome) ∧
  (∀ p ∈ m.measures, countVal m.measures_by_name p.1 = 1)

/-- The sample count of each ring's current bucket of a measure. -/
def currentCounts (mi : MeasureInner) : List (Option Nat) :=
  mi.intervals.rollup_intervals.map
    (fun rs => (rs.rollups.get? rs.current_rollup_index).map Rollup.sample_count)

/-- True when no ring of the measure would rotate at monotonic time
`nowMono`. -/
def noRotationB (mi : MeasureInner) (nowMono : Nat) : Bool :=
  mi.intervals.rollup_intervals.all
    (fun rs => match rs.rollups.get? rs.current_rollup_index with
      | some b => decide (nowMono - b.start_ticks ≤ rs.interval_seconds)
      | none => false)

/-! ### Process model: several registries sharing `NEXT_MEASURE_HANDLE` -/

/-- One mutating registry operation (the read-only operations `exists`,
`get_handle` and `get_measure` do not change the registry state). -/
inductive RegOp where
  | newMeasure (name : String)
  | addValue (handle value : Nat)
  | addValueByName (name : String) (value : Nat)
  deriving DecidableEq, Repr

/-- Run one mutating registry operation. -/
def MeasuresInner.runOp (m : MeasuresInner) (ctr : Nat) (op : RegOp)
    (nowMono nowWall : Nat) : Option (MeasuresInner × Nat) :=
  match op with
  | .newMeasure name =>
    (m.new_measure ctr name nowMono nowWall).map (fun p => p.2)
  | .addValue handle value => m.add_value ctr handle value nowMono nowWall
  | .addValueByName name value => m.add_value_by_name ctr name value nowMono nowWall

/-- Process state: the `NEXT_MEASURE_HANDLE` counter and every registry
instance alive in the process. -/
structure ProcState where
  next_measure_handle : Nat
  registries : List MeasuresInner
  deriving DecidableEq, Repr

/-- Process start: the static counter at 1, `n` freshly constructed
registries. -/
def ProcState.init (n : Nat) : ProcState :=
  { next_measure_handle := 1, registries := List.replicate n MeasuresInner.new }

/-- `new_measure` against registry `i`, also returning the handle. -/
def ProcState.new_measure (p : ProcState) (i : Nat) (name : String)
    (nowMono nowWall : Nat) : Option (Nat × ProcState) :=
  match p.registries.get? i with
  | none => none
  | some reg =>
    match reg.new_measure p.next_measure_handle name nowMono nowWall with
    | some (h, reg', ctr') =>
      some (h, { next_measure_handle := ctr', registries := p.registries.set i reg' })
    | none => none

/-- One mutating operation against registry `i`. -/
def ProcState.runOp (p : ProcState) (i : Nat) (op : RegOp) (nowMono nowWall : Nat) :
    Option ProcState :=
  match p.registries.get? i with
  | none => none
  | some reg =>
    match reg.runOp p.next_measure_handle op nowMono nowWall with
    | some (reg', ctr') =>
      some { next_measure_handle := ctr', registries := p.registries.set i reg' }
    | none => none

/-- A schedule: registry index, operation and clock readings per step. -/
abbrev Sched := List (Nat × RegOp × Nat × Nat)

/-- Run a schedule of serialized operations. -/
def ProcState.run (p : ProcState) : Sched → Option ProcState
  | [] => some p
  | (i, op, nM, nW) :: rest =>
    match p.runOp i op nM nW with
    | none => none
    | some p' => p'.run rest

/-- Reachability: produced from process start by some schedule. -/
def Reachable (p : ProcState) : Prop :=
  ∃ n sched, ProcState.run (ProcState.init n) sched = some p

/-- All handles stored in a registry are below the counter value `c`. -/
def HandleBound (m : MeasuresInner) (c : Nat) : Prop :=
  (∀ p ∈ m.measures, p.1 < c) ∧ (∀ p ∈ m.measures_by_name, p.2 < c)

/-- Neither map has a duplicate key. -/
def KeysNodup (m : MeasuresInner) : Prop :=
  (m.measures.map Prod.fst).Nodup ∧ (m.measures_by_name.map Prod.fst).Nodup

/-- Per-registry invariant relative to the counter. -/
def RegInv (m : MeasuresInner) (c : Nat) : Prop :=
  HandleBound m c ∧ KeysNodup m ∧ MapsConsistent m

/-- Process-wide invariant. -/
def ProcInv (p : ProcState) : Prop :=
  1 ≤ p.next_measure_handle ∧
  ∀ reg ∈ p.registries, RegInv reg p.next_measure_handle

/-- Concrete schedule used by witnesses: one registry, one
`new_measure "a"` call. -/
def demoSched : Sched := [(0, RegOp.newMeasure "a", 0, 0)]

/-- The process state reached by `demoSched` from `ProcState.init 1`. -/
def demoProc : ProcState :=
  { next_measure_handle := 2,
    registries := [{ measures := [(1, MeasureInner.new "a" 0 0)],
                     measures_by_name := [("a", 1)] }] }

/-- C1 — counterexample: the aggregator built by `RollupIntervals::new` does
not have the claimed configuration; in particular the first ring's interval
is 60 seconds, not 1 second. -/
theorem c1_counterexample :
    ringConfigs (RollupIntervals.new 0 0) ≠ claimedConfig ∧
    (ringConfigs (RollupIntervals.new 0 0)).head? = some (60, 60) := by
  constructor
  · intro h
    simp [ringConfigs, ringConfig, RollupIntervals.new, Rollups.new,
      claimedConfig] at h
  · rfl

/-- An index that is looked up successfully is in range. -/
theorem index_lt_of_get?_eq_some {α : Type} {l : List α} {i : Nat} {b : α}
    (h : l.get? i = some b) : i < l.length := by
  by_contra hlt
  rw [List.get?_eq_none.2 (Nat.le_of_not_lt hlt)] at h
  exact Option.noConfusion h

/-- Functional characterization of `Rollups.add_value`, rotation case. -/
theorem Rollups.add_value_rotate (rs : Rollups) (v nM nW : Nat) (b : Rollup)
    (hb : rs.rollups.get? rs.current_rollup_index = some b)
    (hrot : nM - b.start_ticks > rs.interval_seconds) :
    ∃ b2, rs.rollups.get? ((rs.current_rollup_index + 1) % rs.rollups.length) = some b2 ∧
      rs.add_value v nM nW = some
        { current_rollup_index := (rs.current_rollup_index + 1) % rs.rollups.length,
          interval_seconds := rs.interval_seconds,
          rollups := rs.rollups.set ((rs.current_rollup_index + 1) % rs.rollups.length)
            ((b2.reset_rollup nM nW).add_value v) } := by
  have hlen : 0 < rs.rollups.length :=
    Nat.lt_of_le_of_lt (Nat.zero_le _) (index_lt_of_get?_eq_some hb)
  have hnew : (rs.current_rollup_index + 1) % rs.rollups.length < rs.rollups.length :=
    Nat.mod_lt _ hlen
  have hb2 : rs.rollups.get? ((rs.current_rollup_index + 1) % rs.rollups.length) =
      some (rs.rollups.get ⟨_, hnew⟩) := List.get?_eq_get hnew
  refine ⟨rs.rollups.get ⟨_, hnew⟩, hb2, ?_⟩
  unfold Rollups.add_value
  rw [hb]
  simp only [hrot, if_pos]
  rw [hb2]

/-- Functional characterization of `Rollups.add_value`, no-rotation case. -/
theorem Rollups.add_value_norotate (rs : Rollups) (v nM nW : Nat) (b : Rollup)
    (hb : rs.rollups.get? rs.current_rollup_index = some b)
    (hrot : ¬ nM - b.start_ticks > rs.interval_seconds) :
    rs.add_value v nM nW = some
      { rs with rollups := rs.rollups.set rs.current_rollup_index (b.add_value v) } := by
  unfold Rollups.add_value
  rw [hb]
  simp only [hrot, if_neg, not_false_iff]

/-- C2 — one call to a ring's `add_value(v)` rotates iff the monotonic time
elapsed since the current bucket's window start strictly exceeds
`interval_seconds`; in that case it sets the index to exactly
`(i + 1) % n`, resets that one bucket before adding `v` to it, and leaves
every other bucket unchanged (a single rotation step no matter how much
time elapsed); otherwise `v` is added to the current bucket and the index
is unchanged. -/
theorem c2_single_step_rotation (rs : Rollups) (v nM nW : Nat) (b : Rollup)
    (hb : rs.rollups.get? rs.current_rollup_index = some b) :
    (nM - b.start_ticks > rs.interval_seconds →
      ∃ rs' b2, rs.add_value v nM nW = some rs' ∧
        rs'.current_rollup_index = (rs.current_rollup_index + 1) % rs.rollups.length ∧
        rs.rollups.get? rs'.current_rollup_index = some b2 ∧
        rs'.rollups.get? rs'.current_rollup_index =
          some ((b2.reset_rollup nM nW).add_value v) ∧
        (∀ j, j ≠ rs'.current_rollup_index → rs'.rollups.get? j = rs.rollups.get? j)) ∧
    (¬ nM - b.start_ticks > rs.interval_seconds →
      ∃ rs', rs.add_value v nM nW = some rs' ∧
        rs'.current_rollup_index = rs.current_rollup_index ∧
        rs'.rollups.get? rs.current_rollup_index = some (b.add_value v) ∧
        (∀ j, j ≠ rs.current_rollup_index → rs'.rollups.get? j = rs.rollups.get? j)) := by
  have hi : rs.current_rollup_index < rs.rollups.length := index_lt_of_get?_eq_some hb
  constructor
  · intro hrot
    obtain ⟨b2, hb2, heq⟩ := rs.add_value_rotate v nM nW b hb hrot
    have hnew : (rs.current_rollup_index + 1) % rs.rollups.length < rs.rollups.length :=
      Nat.mod_lt _ (Nat.lt_of_le_of_lt (Nat.zero_le _) hi)
    refine ⟨_, b2, heq, rfl, hb2, ?_, ?_⟩
    · exact List.get?_set_eq_of_lt _ hnew
    · intro j hj
      exact List.get?_set_ne _ _ (fun h => hj h.symm)
  · intro hrot
    refine ⟨_, rs.add_value_norotate v nM nW b hb hrot, rfl, ?_, ?_⟩
    · exact List.get?_set_eq_of_lt _ hi
    · intro j hj
      exact List.get?_set_ne _ _ (fun h => hj h.symm)

/-- C2 witness: a concrete two-bucket ring where the threshold is exceeded. -/
theorem c2_single_step_rotation_witness :
    ({ current_rollup_index := 0, interval_seconds := 1,
       rollups := [Rollup.new 0 0, Rollup.new 0 0] } : Rollups).rollups.get? 0 =
        some (Rollup.new 0 0) ∧
    ((5 : Nat) - (Rollup.new 0 0).start_ticks > 1 →
      ∃ rs' b2,
        ({ current_rollup_index := 0, interval_seconds := 1,
           rollups := [Rollup.new 0 0, Rollup.new 0 0] } : Rollups).add_value 7 5 5 =
            some rs' ∧
        rs'.current_rollup_index = (0 + 1) % 2 ∧
        ({ current_rollup_index := 0, interval_seconds := 1,
           rollups := [Rollup.new 0 0, Rollup.new 0 0] } : Rollups).rollups.get?
            rs'.current_rollup_index = some b2 ∧
        rs'.rollups.get? rs'.current_rollup_index =
          some ((b2.reset_rollup 5 5).add_value 7) ∧
        (∀ j, j ≠ rs'.current_rollup_index →
          rs'.rollups.get? j =
            ({ current_rollup_index := 0, interval_seconds := 1,
               rollups := [Rollup.new 0 0, Rollup.new 0 0] } : Rollups).rollups.get? j)) :=
  ⟨by decide,
   (c2_single_step_rotation
     { current_rollup_index := 0, interval_seconds := 1,
       rollups := [Rollup.new 0 0, Rollup.new 0 0] } 7 5 5 (Rollup.new 0 0)
     (by decide)).1⟩

/-- C9 — for every ring, if `current_rollup_index < len(buckets)` then
`add_value` succeeds (the internal panic branches are unreachable) and the
invariant is preserved; it also holds initially for any ring built with at
least one bucket. -/
theorem c9_index_invariant (rs : Rollups) (v nM nW : Nat)
    (hinv : rs.current_rollup_index < rs.rollups.length) :
    (∀ ic c n1 n2, 1 ≤ c →
      (Rollups.new ic c n1 n2).current_rollup_index <
        (Rollups.new ic c n1 n2).rollups.length) ∧
    ∃ rs', rs.add_value v nM nW = some rs' ∧
      rs'.current_rollup_index < rs'.rollups.length ∧
      rs'.rollups.length = rs.rollups.length := by
  constructor
  · intro ic c n1 n2 hc
    simpa [Rollups.new] using hc
  · have hb : rs.rollups.get? rs.current_rollup_index =
        some (rs.rollups.get ⟨_, hinv⟩) := List.get?_eq_get hinv
    by_cases hrot : nM - (rs.rollups.get ⟨_, hinv⟩).start_ticks > rs.interval_seconds
    · obtain ⟨b2, _, heq⟩ := rs.add_value_rotate v nM nW _ hb hrot
      refine ⟨_, heq, ?_, ?_⟩
      · simpa using Nat.mod_lt _ (Nat.lt_of_le_of_lt (Nat.zero_le _) hinv)
      · simp
    · refine ⟨_, rs.add_value_norotate v nM nW _ hb hrot, ?_, ?_⟩
      · simpa using hinv
      · simp

/-- C9 witness: a concrete one-bucket ring. -/
theorem c9_index_invariant_witness :
    (({ current_rollup_index := 0, interval_seconds := 60,
        rollups := [Rollup.new 0 0] } : Rollups).current_rollup_index <
      ({ current_rollup_index := 0, interval_seconds := 60,
         rollups := [Rollup.new 0 0] } : Rollups).rollups.length) ∧
    ((∀ ic c n1 n2, 1 ≤ c →
      (Rollups.new ic c n1 n2).current_rollup_index <
        (Rollups.new ic c n1 n2).rollups.length) ∧
    ∃ rs', ({ current_rollup_index := 0, interval_seconds := 60,
              rollups := [Rollup.new 0 0] } : Rollups).add_value 3 0 0 = some rs' ∧
      rs'.current_rollup_index < rs'.rollups.length ∧
      rs'.rollups.length =
        ({ current_rollup_index := 0, interval_seconds := 60,
           rollups := [Rollup.new 0 0] } : Rollups).rollups.length) :=
  ⟨by decide,
   c9_index_invariant
     { current_rollup_index := 0, interval_seconds := 60,
       rollups := [Rollup.new 0 0] } 3 0 0 (by decide)⟩

/-- C1 (amended) — the aggregator constructed for every Measure consists of
exactly three rings with fixed configuration: 60 buckets of 60-second
interval, 24 buckets of 3600-second interval, and 14 buckets of
86400-second interval; in particular the first ring's interval is 60
seconds. -/
theorem c1_ring_configuration (nowMono nowWall : Nat) :
    ringConfigs (RollupIntervals.new nowMono nowWall) =
      [(60, 60), (3600, 24), (86400, 14)] := by
  simp [ringConfigs, ringConfig, RollupIntervals.new, Rollups.new]

/-! ### Bucket operation sequences (claim C8) -/

/-- Invariant carried through a bucket operation sequence: the sample count
is the number of adds since the last reset modulo `2 ^ 32`, and a bucket
with no adds since its last reset has total 0. -/
theorem applyBOps_invariant (ops : List BOp) :
    ∀ (r : Rollup) (a : Nat), r.sample_count = a % U32MOD → (a = 0 → r.total = 0) →
      (applyBOps r ops).sample_count = addsSinceReset a ops % U32MOD ∧
      (addsSinceReset a ops = 0 → (applyBOps r ops).total = 0) := by
  induction ops with
  | nil => exact fun r a h1 h2 => ⟨h1, h2⟩
  | cons op rest ih =>
    intro r a h1 h2
    cases op with
    | add v =>
      refine ih (r.add_value v) (a + 1) ?_ ?_
      · simp [Rollup.add_value, h1, Nat.add_mod_left, Nat.mod_add_mod]
      · intro h
        exact absurd h (Nat.succ_ne_zero a)
    | reset nM nW =>
      refine ih (r.reset_rollup nM nW) 0 ?_ ?_
      · simp [Rollup.reset_rollup]
      · intro _
        simp [Rollup.reset_rollup]

/-- Effect of a run of `add 0` operations: the total is unchanged (when in
`u32` range) and the sample count advances modulo `2 ^ 32`. -/
theorem applyBOps_replicate_add_zero (k : Nat) :
    ∀ r : Rollup, r.sample_count < U32MOD → r.total < U32MOD →
      applyBOps r (List.replicate k (BOp.add 0)) =
        { r with sample_count := (r.sample_count + k) % U32MOD } := by
  induction k with
  | zero =>
    intro r hsc _hr
    simp [applyBOps, Nat.mod_eq_of_lt hsc]
  | succ k ih =>
    intro r hsc hr
    rw [List.replicate_succ]
    have hcons : ∀ (r' : Rollup) (op : BOp) (rest : List BOp),
        applyBOps r' (op :: rest) = applyBOps (applyBOp r' op) rest :=
      fun _ _ _ => rfl
    rw [hcons]
    have hstep : applyBOp r (BOp.add 0) =
        { r with sample_count := (r.sample_count + 1) % U32MOD,
                 total := r.total } := by
      simp [applyBOp, Rollup.add_value, Nat.mod_eq_of_lt hr]
    rw [hstep]
    have ih' := ih
      { r with sample_count := (r.sample_count + 1) % U32MOD, total := r.total }
      (Nat.mod_lt _ (show U32MOD > 0 by decide)) hr
    rw [ih']
    have harith : ((r.sample_count + 1) % U32MOD + k) % U32MOD =
        (r.sample_count + (k + 1)) % U32MOD := by
      rw [Nat.mod_add_mod]
      congr 1
      omega
    rw [harith]

/-- C8 — counterexample: after `add_value(1)` followed by `2 ^ 32 - 1` calls
of `add_value(0)` on a fresh bucket, the `u32` sample count has wrapped to 0
while the total is 1, violating `sampleCount == 0 ⇒ total == 0`. -/
theorem c8_counterexample :
    (applyBOps (Rollup.new 0 0) c8ops).sample_count = 0 ∧
    (applyBOps (Rollup.new 0 0) c8ops).total = 1 := by
  have h1 : applyBOp (Rollup.new 0 0) (BOp.add 1) =
      { total := 1, sample_count := 1, start_ticks := 0, start_time := 0,
        active := false, first := false, whole := false } := by decide
  have h2 := applyBOps_replicate_add_zero (U32MOD - 1)
      { total := 1, sample_count := 1, start_ticks := 0, start_time := 0,
        active := false, first := false, whole := false } (by decide) (by decide)
  have hcons : ∀ (r' : Rollup) (op : BOp) (rest : List BOp),
      applyBOps r' (op :: rest) = applyBOps (applyBOp r' op) rest :=
    fun _ _ _ => rfl
  have hrun : applyBOps (Rollup.new 0 0) c8ops =
      { total := 1, sample_count := (1 + (U32MOD - 1)) % U32MOD,
        start_ticks := 0, start_time := 0,
        active := false, first := false, whole := false } := by
    simp only [c8ops]
    rw [hcons, h1, h2]
  rw [hrun]
  constructor
  · show (1 + (U32MOD - 1)) % U32MOD = 0
    have he : 1 + (U32MOD - 1) = U32MOD := by decide
    rw [he, Nat.mod_self]
  · rfl

/-- C8 (amended) — every bucket satisfies `sampleCount == 0 ⇒ total == 0` in
its initial state and after every sequence of `add_value`/`reset` operations
in which fewer than `2 ^ 32` `add_value` calls have occurred since the last
reset (or since creation); with unrestricted `u32` wraparound the
implication can fail. -/
theorem c8_zero_count_zero_total (ops : List BOp) (n1 n2 : Nat)
    (hbound : addsSinceReset 0 ops < U32MOD)
    (hcount : (applyBOps (Rollup.new n1 n2) ops).sample_count = 0) :
    (applyBOps (Rollup.new n1 n2) ops).total = 0 := by
  obtain ⟨hsc, htot⟩ := applyBOps_invariant ops (Rollup.new n1 n2) 0
    (by simp [Rollup.new]) (fun _ => rfl)
  apply htot
  have : addsSinceReset 0 ops % U32MOD = 0 := by rw [← hsc, hcount]
  rwa [Nat.mod_eq_of_lt hbound] at this

/-- C8 witness: a short concrete sequence ending in a reset. -/
theorem c8_zero_count_zero_total_witness :
    addsSinceReset 0 [BOp.add 5, BOp.reset 1 1] < U32MOD ∧
    (applyBOps (Rollup.new 0 0) [BOp.add 5, BOp.reset 1 1]).sample_count = 0 ∧
    (applyBOps (Rollup.new 0 0) [BOp.add 5, BOp.reset 1 1]).total = 0 :=
  ⟨by decide, by decide,
   c8_zero_count_zero_total [BOp.add 5, BOp.reset 1 1] 0 0 (by decide) (by decide)⟩

/-! ### Association-list lemmas -/

theorem mem_of_lookupA_some {α β : Type} [DecidableEq α] {l : List (α × β)}
    {a : α} {b : β} (h : lookupA l a = some b) : (a, b) ∈ l := by
  induction l with
  | nil => exact Option.noConfusion h
  | cons p rest ih =>
    obtain ⟨k, v⟩ := p
    by_cases hk : k = a
    · subst hk
      simp [lookupA] at h
      simp [h]
    · simp [lookupA, hk] at h
      exact List.mem_cons_of_mem _ (ih h)

theorem keys_ne_of_lookupA_none {α β : Type} [DecidableEq α] {l : List (α × β)}
    {a : α} (h : lookupA l a = none) : ∀ p ∈ l, p.1 ≠ a := by
  induction l with
  | nil => intro p hp; exact absurd hp (List.not_mem_nil p)
  | cons q rest ih =>
    obtain ⟨k, v⟩ := q
    intro p hp
    by_cases hk : k = a
    · subst hk
      simp [lookupA] at h
    · simp [lookupA, hk] at h
      rcases List.mem_cons.1 hp with hh | ht
      · subst hh; exact hk
      · exact ih h p ht

theorem countKey_eq_zero_of_lookupA_none {α β : Type} [DecidableEq α]
    {l : List (α × β)} {a : α} (h : lookupA l a = none) : countKey l a = 0 := by
  unfold countKey
  rw [List.filter_eq_nil.2 (fun p hp => by
    simpa using keys_ne_of_lookupA_none h p hp)]
  rfl

theorem countKey_pos_of_lookupA_some {α β : Type} [DecidableEq α]
    {l : List (α × β)} {a : α} {b : β} (h : lookupA l a = some b) :
    1 ≤ countKey l a := by
  unfold countKey
  have hm : (a, b) ∈ l.filter (fun p => p.1 = a) :=
    (List.mem_filter).2 ⟨mem_of_lookupA_some h, by simp⟩
  exact List.length_pos.2 (fun he => by simp [he] at hm)

theorem countKey_cons_self {α β : Type} [DecidableEq α] (l : List (α × β))
    (a : α) (b : β) : countKey ((a, b) :: l) a = countKey l a + 1 := by
  simp [countKey, List.filter]

theorem lookupA_cons_self {α β : Type} [DecidableEq α] (l : List (α × β))
    (a : α) (b : β) : lookupA ((a, b) :: l) a = some b := by
  simp [lookupA]

theorem lookupA_cons_ne {α β : Type} [DecidableEq α] (l : List (α × β))
    {a k : α} (b : β) (h : k ≠ a) : lookupA ((k, b) :: l) a = lookupA l a := by
  simp [lookupA, h]

theorem lookupA_updateA_eq {α β : Type} [DecidableEq α] {l : List (α × β)}
    {a : α} {x : β} (b : β) (h : lookupA l a = some x) :
    lookupA (updateA l a b) a = some b := by
  induction l with
  | nil => exact Option.noConfusion h
  | cons q rest ih =>
    obtain ⟨k, v⟩ := q
    by_cases hk : k = a
    · subst hk
      simp [updateA, lookupA]
    · simp [lookupA, hk] at h
      simp [updateA, lookupA, hk]
      exact ih h

theorem lookupA_updateA_ne {α β : Type} [DecidableEq α] (l : List (α × β))
    (a : α) (b : β) {a' : α} (h : a' ≠ a) :
    lookupA (updateA l a b) a' = lookupA l a' := by
  induction l with
  | nil => rfl
  | cons q rest ih =>
    obtain ⟨k, v⟩ := q
    by_cases hk : k = a
    · subst hk
      have hk' : ¬ k = a' := fun hh => h hh.symm
      simp [updateA, lookupA, hk']
    · by_cases hk' : k = a'
      · subst hk'
        simp [updateA, hk, lookupA]
      · simp [updateA, hk, lookupA, hk']
        exact ih

theorem mem_updateA {α β : Type} [DecidableEq α] {l : List (α × β)}
    {a : α} {b : β} {p : α × β} (h : p ∈ updateA l a b) :
    p = (a, b) ∨ p ∈ l := by
  induction l with
  | nil => simp [updateA] at h
  | cons q rest ih =>
    obtain ⟨k, v⟩ := q
    by_cases hk : k = a
    · subst hk
      simp [updateA] at h
      rcases h with hh | ht
      · exact Or.inl (by simp [hh])
      · exact Or.inr (List.mem_cons_of_mem _ ht)
    · simp [updateA, hk] at h
      rcases h with hh | ht
      · exact Or.inr (by simp [hh])
      · rcases ih ht with hl | hr
        · exact Or.inl hl
        · exact Or.inr (List.mem_cons_of_mem _ hr)

theorem updateA_map_fst {α β : Type} [DecidableEq α] (l : List (α × β))
    (a : α) (b : β) : (updateA l a b).map Prod.fst = l.map Prod.fst := by
  induction l with
  | nil => rfl
  | cons q rest ih =>
    obtain ⟨k, v⟩ := q
    by_cases hk : k = a
    · subst hk
      simp [updateA]
    · simp [updateA, hk, ih]

theorem countVal_cons {α β : Type} [DecidableEq β] (l : List (α × β))
    (a : α) (b b0 : β) :
    countVal ((a, b) :: l) b0 = (if b = b0 then 1 else 0) + countVal l b0 := by
  by_cases hb : b = b0
  · simp [countVal, List.filter, hb]
    omega
  · simp [countVal, List.filter, hb]

theorem countVal_eq_zero_of_forall_lt {α : Type} {l : List (α × Nat)} {c : Nat}
    (h : ∀ p ∈ l, p.2 < c) : countVal l c = 0 := by
  unfold countVal
  rw [List.filter_eq_nil.2 (fun p hp => by
    simp only [decide_eq_true_eq]
    exact Nat.ne_of_lt (h p hp))]
  rfl

/-! ### `new_measure` characterization -/

/-- `new_measure` on an already-registered name: no allocation, state and
counter unchanged, the existing handle returned. -/
theorem new_measure_found (m : MeasuresInner) (ctr : Nat) (name : String)
    (nM nW : Nat) {h0 : Nat}
    (hf : lookupA m.measures_by_name name = some h0) :
    m.new_measure ctr name nM nW = some (h0, m, ctr) := by
  simp [MeasuresInner.new_measure, hf]

/-- `new_measure` on a fresh name: the counter value becomes the handle,
both maps gain the entry, the counter advances by one. -/
theorem new_measure_fresh (m : MeasuresInner) (ctr : Nat) (name : String)
    (nM nW : Nat) (hf : lookupA m.measures_by_name name = none) :
    m.new_measure ctr name nM nW = some (ctr,
      { measures := (ctr, MeasureInner.new name nM nW) :: m.measures,
        measures_by_name := (name, ctr) :: m.measures_by_name }, ctr + 1) := by
  simp [MeasuresInner.new_measure, hf, lookupA]

/-! ### Ring- and measure-level execution lemmas -/

/-- Any sane ring's `add_value` succeeds and stays sane. -/
theorem Rollups.add_value_total (rs : Rollups) (v nM nW : Nat) (h : RingSane rs) :
    ∃ rs', rs.add_value v nM nW = some rs' ∧ RingSane rs' ∧
      rs'.rollups.length = rs.rollups.length := by
  have hb : rs.rollups.get? rs.current_rollup_index =
      some (rs.rollups.get ⟨_, h⟩) := List.get?_eq_get h
  by_cases hrot : nM - (rs.rollups.get ⟨_, h⟩).start_ticks > rs.interval_seconds
  · obtain ⟨b2, _, heq⟩ := rs.add_value_rotate v nM nW _ hb hrot
    refine ⟨_, heq, ?_, by simp⟩
    simpa [RingSane] using Nat.mod_lt _ (Nat.lt_of_le_of_lt (Nat.zero_le _) h)
  · refine ⟨_, rs.add_value_norotate v nM nW _ hb hrot, ?_, by simp⟩
    simpa [RingSane] using h

/-- `addValueRings` on a list of sane rings succeeds, preserves length and
acts pointwise by `Rollups.add_value`. -/
theorem addValueRings_spec (v nM nW : Nat) :
    ∀ l : List Rollups, (∀ rs ∈ l, RingSane rs) →
      ∃ l', RollupIntervals.addValueRings l v nM nW = some l' ∧
        l'.length = l.length ∧
        ∀ k rs, l.get? k = some rs → ∃ rs', l'.get? k = some rs' ∧
          rs.add_value v nM nW = some rs' ∧ RingSane rs' := by
  intro l
  induction l with
  | nil =>
    intro _
    refine ⟨[], rfl, rfl, ?_⟩
    intro k rs hk
    simp at hk
  | cons r rest ih =>
    intro hs
    obtain ⟨r', heq, hsane', _⟩ :=
      r.add_value_total v nM nW (hs r (List.mem_cons_self r rest))
    obtain ⟨l', hl', hlen, hpt⟩ := ih (fun q hq => hs q (List.mem_cons_of_mem _ hq))
    refine ⟨r' :: l', ?_, by simp [hlen], ?_⟩
    · simp [RollupIntervals.addValueRings, heq, hl']
    · intro k q hk
      cases k with
      | zero =>
        rw [List.get?_cons_zero] at hk
        injection hk with hk
        subst hk
        exact ⟨r', rfl, heq, hsane'⟩
      | succ k =>
        rw [List.get?_cons_succ] at hk ⊢
        exact hpt k q hk

/-- A freshly constructed measure is sane. -/
theorem MeasureSane_new (name : String) (nM nW : Nat) :
    MeasureSane (MeasureInner.new name nM nW) := by
  intro rs hrs
  simp [MeasureInner.new, RollupIntervals.new] at hrs
  rcases hrs with h | h | h <;> subst h <;> simp [Rollups.new, RingSane]

/-- A sane measure's `add_value` succeeds, stays sane, and — when no ring
rotates — advances each ring's current bucket's sample count by exactly one
(modulo `2 ^ 32`). -/
theorem MeasureInner.add_value_spec (mi : MeasureInner) (v nM nW : Nat)
    (hs : MeasureSane mi) :
    ∃ mi', mi.add_value v nM nW = some mi' ∧ MeasureSane mi' ∧
      (noRotationB mi nM = true →
        currentCounts mi' = (currentCounts mi).map
          (fun oc => oc.map (fun c => (c + 1) % U32MOD))) := by
  obtain ⟨l', hl', hlen, hpt⟩ :=
    addValueRings_spec v nM nW mi.intervals.rollup_intervals hs
  refine ⟨{ mi with intervals := ⟨l'⟩ }, ?_, ?_, ?_⟩
  · simp [MeasureInner.add_value, RollupIntervals.add_value, hl']
  · intro rs' hr
    obtain ⟨k, hk⟩ := List.mem_iff_get?.1 hr
    have hk' : k < l'.length := by
      by_contra hge
      rw [List.get?_eq_none.2 (Nat.le_of_not_lt hge)] at hk
      exact Option.noConfusion hk
    have hkl : k < mi.intervals.rollup_intervals.length := hlen ▸ hk'
    obtain ⟨rs'', hrs'', _, hsane''⟩ :=
      hpt k (mi.intervals.rollup_intervals.get ⟨k, hkl⟩) (List.get?_eq_get hkl)
    rw [hk] at hrs''
    injection hrs'' with he
    exact he ▸ hsane''
  · intro hnr
    have hnr' := List.all_eq_true.1 hnr
    simp only [currentCounts]
    apply List.ext
    intro k
    rw [List.get?_map, List.get?_map, List.get?_map]
    cases hrs : mi.intervals.rollup_intervals.get? k with
    | none =>
      have hk := List.get?_eq_none.1 hrs
      have hnone : l'.get? k = none := by
        apply List.get?_eq_none.2
        omega
      rw [hnone]
      rfl
    | some rs =>
      obtain ⟨rs', hrs', hadd, _⟩ := hpt k rs hrs
      have hmem : rs ∈ mi.intervals.rollup_intervals := List.get?_mem hrs
      have hsanr : RingSane rs := hs rs hmem
      have hb : rs.rollups.get? rs.current_rollup_index =
          some (rs.rollups.get ⟨_, hsanr⟩) := List.get?_eq_get hsanr
      have hno := hnr' rs hmem
      rw [hb] at hno
      have hle : nM - (rs.rollups.get ⟨_, hsanr⟩).start_ticks ≤
          rs.interval_seconds := by
        simpa using hno
      have heq2 := rs.add_value_norotate v nM nW _ hb (Nat.not_lt.2 hle)
      rw [hadd] at heq2
      injection heq2 with he
      subst he
      rw [hrs']
      have hlt : rs.current_rollup_index < rs.rollups.length := hsanr
      have hb' : rs.rollups[rs.current_rollup_index]? =
          some (rs.rollups.get ⟨rs.current_rollup_index, hsanr⟩) := by
        rw [← List.get?_eq_getElem?]
        exact hb
      simp [hb, hb', Rollup.add_value, List.getElem?_set_eq_of_lt, hlt]

/-! ### Registry claims -/

/-- C5 — `new_measure` is an idempotent create-or-get: after a first call
returning handle `h`, every subsequent call with the same name returns the
same `h` with the registry state and the global counter unchanged (no new
allocation), and the registry holds exactly one entry for the name. -/
theorem c5_new_measure_idempotent (m : MeasuresInner) (ctr : Nat) (name : String)
    (nM nW nM' nW' : Nat) (hdup : countKey m.measures_by_name name ≤ 1) :
    ∃ h m1 c1,
      m.new_measure ctr name nM nW = some (h, m1, c1) ∧
      m1.new_measure c1 name nM' nW' = some (h, m1, c1) ∧
      countKey m1.measures_by_name name = 1 := by
  cases hl : lookupA m.measures_by_name name with
  | some h0 =>
    refine ⟨h0, m, ctr, new_measure_found m ctr name nM nW hl,
      new_measure_found m ctr name nM' nW' hl, ?_⟩
    exact Nat.le_antisymm hdup (countKey_pos_of_lookupA_some hl)
  | none =>
    refine ⟨ctr,
      { measures := (ctr, MeasureInner.new name nM nW) :: m.measures,
        measures_by_name := (name, ctr) :: m.measures_by_name }, ctr + 1,
      new_measure_fresh m ctr name nM nW hl, ?_, ?_⟩
    · exact new_measure_found _ _ _ _ _ (lookupA_cons_self _ _ _)
    · show countKey ((name, ctr) :: m.measures_by_name) name = 1
      rw [countKey_cons_self, countKey_eq_zero_of_lookupA_none hl]

/-- C5 witness: fresh empty registry, counter 1, name "a". -/
theorem c5_new_measure_idempotent_witness :
    countKey MeasuresInner.new.measures_by_name "a" ≤ 1 ∧
    ∃ h m1 c1,
      MeasuresInner.new.new_measure 1 "a" 0 0 = some (h, m1, c1) ∧
      m1.new_measure c1 "a" 5 5 = some (h, m1, c1) ∧
      countKey m1.measures_by_name "a" = 1 :=
  ⟨by decide, c5_new_measure_idempotent MeasuresInner.new 1 "a" 0 0 5 5 (by decide)⟩

/-- C3 — for every registry state and every handle `h` not mapped to a
measure, `add_value(h, v)` adds `v` to no real measure: the result is the
same for every discarded `v`, every handle other than the sentinel's maps
to an unchanged measure, and against the unknown-handle sentinel (created
fresh if absent) exactly the fixed value 1 is recorded — one sample,
advancing each (non-rotating) ring's current-bucket sample count by exactly
one. -/
theorem c3_unknown_handle_fallback (m : MeasuresInner) (ctr h v v' nM nW : Nat)
    (hh : lookupA m.measures h = none) (hsane : RegSane m)
    (hcons : ByNameConsistent m) :
    ∃ m' ctr' hs sent sent',
      m.add_value ctr h v nM nW = some (m', ctr') ∧
      m.add_value ctr h v' nM nW = some (m', ctr') ∧
      lookupA m'.measures_by_name unknown_handle_name = some hs ∧
      lookupA m'.measures hs = some sent' ∧
      ((lookupA m.measures_by_name unknown_handle_name = some hs ∧
        lookupA m.measures hs = some sent) ∨
       (lookupA m.measures_by_name unknown_handle_name = none ∧
        sent = MeasureInner.new unknown_handle_name nM nW)) ∧
      sent.add_value 1 nM nW = some sent' ∧
      (∀ g, g ≠ hs → lookupA m'.measures g = lookupA m.measures g) ∧
      (noRotationB sent nM = true →
        currentCounts sent' = (currentCounts sent).map
          (fun oc => oc.map (fun c => (c + 1) % U32MOD))) := by
  cases hserr : lookupA m.measures_by_name unknown_handle_name with
  | some hs0 =>
    have hsome := hcons _ (mem_of_lookupA_some hserr)
    obtain ⟨sent, hsent⟩ := Option.isSome_iff_exists.1 hsome
    have hmsane : MeasureSane sent := hsane _ (mem_of_lookupA_some hsent)
    obtain ⟨sent', hadd1, _, hcnt⟩ := sent.add_value_spec 1 nM nW hmsane
    have hrun : ∀ w, m.add_value ctr h w nM nW =
        some ({ m with measures := updateA m.measures hs0 sent' }, ctr) := by
      intro w
      simp only [MeasuresInner.add_value, hh,
        new_measure_found m ctr unknown_handle_name nM nW hserr, hsent, hadd1]
    refine ⟨_, ctr, hs0, sent, sent', hrun v, hrun v', hserr,
      lookupA_updateA_eq sent' hsent, Or.inl ⟨rfl, hsent⟩, hadd1, ?_, hcnt⟩
    intro g hg
    exact lookupA_updateA_ne m.measures hs0 sent' hg
  | none =>
    have hmsane := MeasureSane_new unknown_handle_name nM nW
    obtain ⟨sent', hadd1, _, hcnt⟩ :=
      (MeasureInner.new unknown_handle_name nM nW).add_value_spec 1 nM nW hmsane
    have hrun : ∀ w, m.add_value ctr h w nM nW = some
        ({ measures := (ctr, sent') :: m.measures,
           measures_by_name := (unknown_handle_name, ctr) :: m.measures_by_name },
         ctr + 1) := by
      intro w
      simp only [MeasuresInner.add_value, hh,
        new_measure_fresh m ctr unknown_handle_name nM nW hserr,
        lookupA_cons_self, hadd1, updateA, if_pos]
    refine ⟨_, ctr + 1, ctr, MeasureInner.new unknown_handle_name nM nW, sent',
      hrun v, hrun v', lookupA_cons_self _ _ _, lookupA_cons_self _ _ _,
      Or.inr ⟨rfl, rfl⟩, hadd1, ?_, hcnt⟩
    intro g hg
    exact lookupA_cons_ne m.measures sent' (fun he => hg he.symm)

/-- C3 witness: empty registry, invalid handle 5, values 7 and 9. -/
theorem c3_unknown_handle_fallback_witness :
    lookupA MeasuresInner.new.measures 5 = none ∧ RegSane MeasuresInner.new ∧
    ByNameConsistent MeasuresInner.new ∧
    ∃ m' ctr' hs sent sent',
      MeasuresInner.new.add_value 1 5 7 0 0 = some (m', ctr') ∧
      MeasuresInner.new.add_value 1 5 9 0 0 = some (m', ctr') ∧
      lookupA m'.measures_by_name unknown_handle_name = some hs ∧
      lookupA m'.measures hs = some sent' ∧
      ((lookupA MeasuresInner.new.measures_by_name unknown_handle_name = some hs ∧
        lookupA MeasuresInner.new.measures hs = some sent) ∨
       (lookupA MeasuresInner.new.measures_by_name unknown_handle_name = none ∧
        sent = MeasureInner.new unknown_handle_name 0 0)) ∧
      sent.add_value 1 0 0 = some sent' ∧
      (∀ g, g ≠ hs →
        lookupA m'.measures g = lookupA MeasuresInner.new.measures g) ∧
      (noRotationB sent 0 = true →
        currentCounts sent' = (currentCounts sent).map
          (fun oc => oc.map (fun c => (c + 1) % U32MOD))) :=
  ⟨rfl, by simp [RegSane, MeasuresInner.new], by simp [ByNameConsistent, MeasuresInner.new],
   c3_unknown_handle_fallback MeasuresInner.new 1 5 7 9 0 0 rfl
     (by simp [RegSane, MeasuresInner.new]) (by simp [ByNameConsistent, MeasuresInner.new])⟩

/-- C4 — for every registry state and every unregistered name other than the
unknown-name sentinel's own name, `add_value_by_name(name, v)` creates no
measure under that name; instead exactly the fixed value 1 is recorded
against the unknown-name sentinel (a name distinct from the unknown-handle
sentinel's), independently of the discarded `v`. -/
theorem c4_unknown_name_fallback (m : MeasuresInner) (ctr v v' nM nW : Nat)
    (name : String) (hn : lookupA m.measures_by_name name = none)
    (hne : name ≠ unknown_name_name) (hsane : RegSane m)
    (hcons : ByNameConsistent m) :
    unknown_name_name ≠ unknown_handle_name ∧
    ∃ m' ctr' hs sent sent',
      m.add_value_by_name ctr name v nM nW = some (m', ctr') ∧
      m.add_value_by_name ctr name v' nM nW = some (m', ctr') ∧
      lookupA m'.measures_by_name name = none ∧
      lookupA m'.measures_by_name unknown_name_name = some hs ∧
      lookupA m'.measures hs = some sent' ∧
      ((lookupA m.measures_by_name unknown_name_name = some hs ∧
        lookupA m.measures hs = some sent) ∨
       (lookupA m.measures_by_name unknown_name_name = none ∧
        sent = MeasureInner.new unknown_name_name nM nW)) ∧
      sent.add_value 1 nM nW = some sent' ∧
      (noRotationB sent nM = true →
        currentCounts sent' = (currentCounts sent).map
          (fun oc => oc.map (fun c => (c + 1) % U32MOD))) := by
  refine ⟨by decide, ?_⟩
  cases hserr : lookupA m.measures_by_name unknown_name_name with
  | some hs0 =>
    have hsome := hcons _ (mem_of_lookupA_some hserr)
    obtain ⟨sent, hsent⟩ := Option.isSome_iff_exists.1 hsome
    have hmsane : MeasureSane sent := hsane _ (mem_of_lookupA_some hsent)
    obtain ⟨sent', hadd1, _, hcnt⟩ := sent.add_value_spec 1 nM nW hmsane
    have hrun : ∀ w, m.add_value_by_name ctr name w nM nW =
        some ({ m with measures := updateA m.measures hs0 sent' }, ctr) := by
      intro w
      simp only [MeasuresInner.add_value_by_name, hn,
        new_measure_found m ctr unknown_name_name nM nW hserr, hsent, hadd1]
    exact ⟨_, ctr, hs0, sent, sent', hrun v, hrun v', hn, hserr,
      lookupA_updateA_eq sent' hsent, Or.inl ⟨rfl, hsent⟩, hadd1, hcnt⟩
  | none =>
    have hmsane := MeasureSane_new unknown_name_name nM nW
    obtain ⟨sent', hadd1, _, hcnt⟩ :=
      (MeasureInner.new unknown_name_name nM nW).add_value_spec 1 nM nW hmsane
    have hrun : ∀ w, m.add_value_by_name ctr name w nM nW = some
        ({ measures := (ctr, sent') :: m.measures,
           measures_by_name := (unknown_name_name, ctr) :: m.measures_by_name },
         ctr + 1) := by
      intro w
      simp only [MeasuresInner.add_value_by_name, hn,
        new_measure_fresh m ctr unknown_name_name nM nW hserr,
        lookupA_cons_self, hadd1, updateA, if_pos]
    refine ⟨_, ctr + 1, ctr, MeasureInner.new unknown_name_name nM nW, sent',
      hrun v, hrun v', ?_, lookupA_cons_self _ _ _, lookupA_cons_self _ _ _,
      Or.inr ⟨rfl, rfl⟩, hadd1, hcnt⟩
    show lookupA ((unknown_name_name, ctr) :: m.measures_by_name) name = none
    rw [lookupA_cons_ne m.measures_by_name ctr (fun he => hne he.symm)]
    exact hn

/-- C4 — counterexample to the claim as stated: for the (unregistered)
unknown-name sentinel name itself, `add_value_by_name` does create a
measure under that exact name. -/
theorem c4_counterexample :
    lookupA MeasuresInner.new.measures_by_name unknown_name_name = none ∧
    (MeasuresInner.new.add_value_by_name 1 unknown_name_name 500 0 0).map
      (fun p => (lookupA p.1.measures_by_name unknown_name_name).isSome) =
      some true := by
  constructor
  · rfl
  · decide

/-- C4 witness: empty registry, unregistered name "x", values 500 and 3. -/
theorem c4_unknown_name_fallback_witness :
    lookupA MeasuresInner.new.measures_by_name "x" = none ∧
    "x" ≠ unknown_name_name ∧ RegSane MeasuresInner.new ∧
    ByNameConsistent MeasuresInner.new ∧
    (unknown_name_name ≠ unknown_handle_name ∧
    ∃ m' ctr' hs sent sent',
      MeasuresInner.new.add_value_by_name 1 "x" 500 0 0 = some (m', ctr') ∧
      MeasuresInner.new.add_value_by_name 1 "x" 3 0 0 = some (m', ctr') ∧
      lookupA m'.measures_by_name "x" = none ∧
      lookupA m'.measures_by_name unknown_name_name = some hs ∧
      lookupA m'.measures hs = some sent' ∧
      ((lookupA MeasuresInner.new.measures_by_name unknown_name_name = some hs ∧
        lookupA MeasuresInner.new.measures hs = some sent) ∨
       (lookupA MeasuresInner.new.measures_by_name unknown_name_name = none ∧
        sent = MeasureInner.new unknown_name_name 0 0)) ∧
      sent.add_value 1 0 0 = some sent' ∧
      (noRotationB sent 0 = true →
        currentCounts sent' = (currentCounts sent).map
          (fun oc => oc.map (fun c => (c + 1) % U32MOD)))) :=
  ⟨rfl, by decide, by simp [RegSane, MeasuresInner.new], by simp [ByNameConsistent, MeasuresInner.new],
   c4_unknown_name_fallback MeasuresInner.new 1 500 3 0 0 "x" rfl
     (by decide) (by simp [RegSane, MeasuresInner.new]) (by simp [ByNameConsistent, MeasuresInner.new])⟩

/-- C10 — the unknown-handle sentinel is an ordinary registry entry: the
first `add_value` with an invalid handle registers it under the fixed name
via `new_measure`, consuming the next handle from the global counter;
afterwards that name exists, and a caller's `new_measure` with that exact
name returns the sentinel's handle with no new allocation. -/
theorem c10_sentinel_is_ordinary (m : MeasuresInner) (ctr h v nM nW nM' nW' : Nat)
    (hh : lookupA m.measures h = none)
    (hfirst : lookupA m.measures_by_name unknown_handle_name = none) :
    ∃ m', m.add_value ctr h v nM nW = some (m', ctr + 1) ∧
      lookupA m'.measures_by_name unknown_handle_name = some ctr ∧
      m'.new_measure (ctr + 1) unknown_handle_name nM' nW' =
        some (ctr, m', ctr + 1) := by
  have hmsane := MeasureSane_new unknown_handle_name nM nW
  obtain ⟨sent', hadd1, _, _⟩ :=
    (MeasureInner.new unknown_handle_name nM nW).add_value_spec 1 nM nW hmsane
  have hrun : m.add_value ctr h v nM nW = some
      ({ measures := (ctr, sent') :: m.measures,
         measures_by_name := (unknown_handle_name, ctr) :: m.measures_by_name },
       ctr + 1) := by
    simp only [MeasuresInner.add_value, hh,
      new_measure_fresh m ctr unknown_handle_name nM nW hfirst,
      lookupA_cons_self, hadd1, updateA, if_pos]
  refine ⟨_, hrun, lookupA_cons_self _ _ _, ?_⟩
  exact new_measure_found _ _ _ _ _ (lookupA_cons_self _ _ _)

/-- C10 witness: empty registry, counter 1, invalid handle 9. -/
theorem c10_sentinel_is_ordinary_witness :
    lookupA MeasuresInner.new.measures 9 = none ∧
    lookupA MeasuresInner.new.measures_by_name unknown_handle_name = none ∧
    ∃ m', MeasuresInner.new.add_value 1 9 500 0 0 = some (m', 2) ∧
      lookupA m'.measures_by_name unknown_handle_name = some 1 ∧
      m'.new_measure 2 unknown_handle_name 3 3 = some (1, m', 2) :=
  ⟨rfl, rfl,
   c10_sentinel_is_ordinary MeasuresInner.new 1 9 500 0 0 3 3 rfl rfl⟩

/-! ### Registry invariant preservation and reachability -/

/-- `RegInv` is monotone in the counter. -/
theorem regInv_mono {m : MeasuresInner} {c c' : Nat} (hinv : RegInv m c)
    (hle : c ≤ c') : RegInv m c' := by
  obtain ⟨⟨hb1, hb2⟩, hk, hmc⟩ := hinv
  exact ⟨⟨fun p hp => Nat.lt_of_lt_of_le (hb1 p hp) hle,
          fun p hp => Nat.lt_of_lt_of_le (hb2 p hp) hle⟩, hk, hmc⟩

/-- Updating an existing measure in place preserves `RegInv`. -/
theorem regInv_updateA {m : MeasuresInner} {c : Nat} (hinv : RegInv m c)
    {k : Nat} {x : MeasureInner} (x' : MeasureInner)
    (hl : lookupA m.measures k = some x) :
    RegInv { m with measures := updateA m.measures k x' } c := by
  obtain ⟨⟨hb1, hb2⟩, ⟨hk1, hk2⟩, ⟨hc1, hc2⟩⟩ := hinv
  refine ⟨⟨?_, hb2⟩, ⟨?_, hk2⟩, ?_, ?_⟩
  · intro p hp
    rcases mem_updateA hp with rfl | hm
    · exact hb1 (k, x) (mem_of_lookupA_some hl)
    · exact hb1 p hm
  · rw [updateA_map_fst]
    exact hk1
  · intro p hp
    by_cases hpk : p.2 = k
    · rw [hpk, lookupA_updateA_eq x' hl]
      rfl
    · rw [lookupA_updateA_ne _ _ _ hpk]
      exact hc1 p hp
  · intro p hp
    rcases mem_updateA hp with rfl | hm
    · exact hc2 (k, x) (mem_of_lookupA_some hl)
    · exact hc2 p hm

/-- `new_measure` preserves `RegInv`, never decreases the counter, and
returns a handle below the new counter. -/
theorem regInv_new_measure {m : MeasuresInner} {c : Nat} (hinv : RegInv m c)
    {name : String} {nM nW : Nat} {h : Nat} {m' : MeasuresInner} {c' : Nat}
    (heq : m.new_measure c name nM nW = some (h, m', c')) :
    RegInv m' c' ∧ c ≤ c' ∧ h < c' := by
  cases hl : lookupA m.measures_by_name name with
  | some h0 =>
    rw [new_measure_found m c name nM nW hl] at heq
    cases heq
    refine ⟨hinv, Nat.le_refl c, ?_⟩
    exact hinv.1.2 _ (mem_of_lookupA_some hl)
  | none =>
    rw [new_measure_fresh m c name nM nW hl] at heq
    cases heq
    obtain ⟨⟨hb1, hb2⟩, ⟨hk1, hk2⟩, ⟨hc1, hc2⟩⟩ := hinv
    refine ⟨⟨⟨?_, ?_⟩, ⟨?_, ?_⟩, ?_, ?_⟩, Nat.le_succ c, Nat.lt_succ_self c⟩
    · intro p hp
      rcases List.mem_cons.1 hp with rfl | hm
      · exact Nat.lt_succ_self c
      · exact Nat.lt_succ_of_lt (hb1 p hm)
    · intro p hp
      rcases List.mem_cons.1 hp with rfl | hm
      · exact Nat.lt_succ_self c
      · exact Nat.lt_succ_of_lt (hb2 p hm)
    · rw [List.map_cons]
      refine List.nodup_cons.2 ⟨?_, hk1⟩
      intro hmem
      obtain ⟨p, hp, hpc⟩ := List.mem_map.1 hmem
      exact absurd hpc (Nat.ne_of_lt (hb1 p hp))
    · rw [List.map_cons]
      refine List.nodup_cons.2 ⟨?_, hk2⟩
      intro hmem
      obtain ⟨p, hp, hpc⟩ := List.mem_map.1 hmem
      exact keys_ne_of_lookupA_none hl p hp hpc
    · intro p hp
      rcases List.mem_cons.1 hp with rfl | hm
      · rw [show ((name, c) : String × Nat).2 = c from rfl,
          lookupA_cons_self]
        rfl
      · have hne : c ≠ p.2 := Nat.ne_of_gt (hb2 p hm)
        rw [lookupA_cons_ne _ _ hne]
        exact hc1 p hm
    · intro p hp
      rcases List.mem_cons.1 hp with rfl | hm
      · rw [show ((c, MeasureInner.new name nM nW) : Nat × MeasureInner).1 = c
            from rfl, countVal_cons, countVal_eq_zero_of_forall_lt hb2]
        simp
      · rw [countVal_cons]
        have hne : ¬ c = p.1 := Nat.ne_of_gt (hb1 p hm)
        rw [if_neg hne, hc2 p hm]

/-- `add_value` preserves `RegInv` and never decreases the counter. -/
theorem regInv_add_value {m : MeasuresInner} {c : Nat} (hinv : RegInv m c)
    (h v nM nW : Nat) {res : MeasuresInner × Nat}
    (heq : m.add_value c h v nM nW = some res) :
    RegInv res.1 res.2 ∧ c ≤ res.2 := by
  cases hl : lookupA m.measures h with
  | some meas =>
    simp only [MeasuresInner.add_value, hl] at heq
    cases hm : meas.add_value v nM nW with
    | none =>
      rw [hm] at heq
      exact Option.noConfusion heq
    | some meas' =>
      rw [hm] at heq
      obtain rfl := Option.some.inj heq
      exact ⟨regInv_updateA hinv meas' hl, Nat.le_refl c⟩
  | none =>
    simp only [MeasuresInner.add_value, hl] at heq
    cases hq : m.new_measure c unknown_handle_name nM nW with
    | none =>
      rw [hq] at heq
      exact Option.noConfusion heq
    | some t =>
      obtain ⟨uh, m1, c1⟩ := t
      simp only [hq] at heq
      cases hl1 : lookupA m1.measures uh with
      | none =>
        rw [hl1] at heq
        exact Option.noConfusion heq
      | some um =>
        simp only [hl1] at heq
        cases hm : um.add_value 1 nM nW with
        | none =>
          rw [hm] at heq
          exact Option.noConfusion heq
        | some um' =>
          simp only [hm] at heq
          obtain rfl := Option.some.inj heq
          obtain ⟨hinv1, hle, _⟩ := regInv_new_measure hinv hq
          exact ⟨regInv_updateA hinv1 um' hl1, hle⟩

/-- `add_value_by_name` preserves `RegInv` and never decreases the
counter. -/
theorem regInv_add_value_by_name {m : MeasuresInner} {c : Nat} (hinv : RegInv m c)
    (name : String) (v nM nW : Nat) {res : MeasuresInner × Nat}
    (heq : m.add_value_by_name c name v nM nW = some res) :
    RegInv res.1 res.2 ∧ c ≤ res.2 := by
  cases hl : lookupA m.measures_by_name name with
  | some h0 =>
    simp only [MeasuresInner.add_value_by_name, hl] at heq
    exact regInv_add_value hinv h0 v nM nW heq
  | none =>
    simp only [MeasuresInner.add_value_by_name, hl] at heq
    cases hq : m.new_measure c unknown_name_name nM nW with
    | none =>
      rw [hq] at heq
      exact Option.noConfusion heq
    | some t =>
      obtain ⟨uh, m1, c1⟩ := t
      simp only [hq] at heq
      cases hl1 : lookupA m1.measures uh with
      | none =>
        rw [hl1] at heq
        exact Option.noConfusion heq
      | some um =>
        simp only [hl1] at heq
        cases hm : um.add_value 1 nM nW with
        | none =>
          rw [hm] at heq
          exact Option.noConfusion heq
        | some um' =>
          simp only [hm] at heq
          obtain rfl := Option.some.inj heq
          obtain ⟨hinv1, hle, _⟩ := regInv_new_measure hinv hq
          exact ⟨regInv_updateA hinv1 um' hl1, hle⟩

/-- Every mutating registry operation preserves `RegInv` and never
decreases the counter. -/
theorem regInv_runOp {m : MeasuresInner} {c : Nat} (hinv : RegInv m c)
    (op : RegOp) (nM nW : Nat) {res : MeasuresInner × Nat}
    (heq : m.runOp c op nM nW = some res) :
    RegInv res.1 res.2 ∧ c ≤ res.2 := by
  cases op with
  | newMeasure name =>
    simp only [MeasuresInner.runOp] at heq
    cases hq : m.new_measure c name nM nW with
    | none =>
      rw [hq] at heq
      exact Option.noConfusion heq
    | some t =>
      obtain ⟨h, m', c'⟩ := t
      rw [hq, Option.map_some'] at heq
      obtain rfl := Option.some.inj heq
      obtain ⟨hinv', hle, _⟩ := regInv_new_measure hinv hq
      exact ⟨hinv', hle⟩
  | addValue h v =>
    exact regInv_add_value hinv h v nM nW heq
  | addValueByName name v =>
    exact regInv_add_value_by_name hinv name v nM nW heq

/-- One process step preserves `ProcInv`. -/
theorem procInv_runOp {p : ProcState} (hinv : ProcInv p) (i : Nat) (op : RegOp)
    (nM nW : Nat) {p' : ProcState} (heq : p.runOp i op nM nW = some p') :
    ProcInv p' := by
  cases hg : p.registries.get? i with
  | none =>
    simp only [ProcState.runOp, hg] at heq
    exact Option.noConfusion heq
  | some reg =>
    simp only [ProcState.runOp, hg] at heq
    cases hr : reg.runOp p.next_measure_handle op nM nW with
    | none =>
      rw [hr] at heq
      exact Option.noConfusion heq
    | some res =>
      obtain ⟨reg', c'⟩ := res
      simp only [hr] at heq
      obtain rfl := Option.some.inj heq
      obtain ⟨hone, hall⟩ := hinv
      obtain ⟨hinv', hle⟩ := regInv_runOp (hall reg (List.get?_mem hg)) op nM nW hr
      refine ⟨Nat.le_trans hone hle, ?_⟩
      intro q hq
      rcases List.mem_or_eq_of_mem_set hq with hm | rfl
      · exact regInv_mono (hall q hm) hle
      · exact hinv'

/-- `ProcInv` holds at process start. -/
theorem procInv_init (n : Nat) : ProcInv (ProcState.init n) := by
  refine ⟨Nat.le_refl 1, ?_⟩
  intro reg hreg
  rw [List.eq_of_mem_replicate hreg]
  exact ⟨⟨fun p hp => absurd hp (List.not_mem_nil p),
          fun p hp => absurd hp (List.not_mem_nil p)⟩,
         ⟨List.nodup_nil, List.nodup_nil⟩,
         fun p hp => absurd hp (List.not_mem_nil p),
         fun p hp => absurd hp (List.not_mem_nil p)⟩

/-- A whole schedule preserves `ProcInv`. -/
theorem procInv_run (sched : Sched) :
    ∀ (p : ProcState), ProcInv p → ∀ {p' : ProcState},
      p.run sched = some p' → ProcInv p' := by
  induction sched with
  | nil =>
    intro p hinv p' heq
    obtain rfl := Option.some.inj heq
    exact hinv
  | cons step rest ih =>
    obtain ⟨i, op, nM, nW⟩ := step
    intro p hinv p' heq
    simp only [ProcState.run] at heq
    cases hs : p.runOp i op nM nW with
    | none =>
      rw [hs] at heq
      exact Option.noConfusion heq
    | some q =>
      simp only [hs] at heq
      exact ih q (procInv_runOp hinv i op nM nW hs) heq

/-- Reachable process states satisfy the invariant. -/
theorem reachable_procInv {p : ProcState} (hp : Reachable p) : ProcInv p := by
  obtain ⟨n, sched, hrun⟩ := hp
  exact procInv_run sched (ProcState.init n) (procInv_init n) hrun

/-- C7 — in every reachable registry state the two maps are mutually
consistent under every operation: every handle appearing as a value of the
name map has an entry in the handle map, and every key of the handle map
appears as the value of exactly one name. -/
theorem c7_maps_consistent (p : ProcState) (hp : Reachable p) :
    ∀ reg ∈ p.registries, MapsConsistent reg := by
  intro reg hreg
  exact ((reachable_procInv hp).2 reg hreg).2.2

/-- C7 witness: the registry of the state reached by registering one
measure is consistent. -/
theorem c7_maps_consistent_witness :
    MapsConsistent { measures := [(1, MeasureInner.new "a" 0 0)],
                     measures_by_name := [("a", 1)] } :=
  c7_maps_consistent demoProc ⟨1, demoSched, by rfl⟩
    { measures := [(1, MeasureInner.new "a" 0 0)],
      measures_by_name := [("a", 1)] }
    (List.mem_singleton.2 rfl)

/-- C6 — handles come from the single process-wide counter starting at 1
and are never reused: in any reachable process state, `new_measure` on a
name unseen by registry `i` returns exactly the current counter value,
which is at least 1 and strictly greater than every handle stored in every
registry of the process (including other registry instances), advances the
counter by one, and records the new handle under the name. -/
theorem c6_handle_allocation (p : ProcState) (hp : Reachable p) (i : Nat)
    (name : String) (nM nW : Nat) (reg : MeasuresInner)
    (hreg : p.registries.get? i = some reg)
    (hfresh : lookupA reg.measures_by_name name = none) :
    ∃ p', p.new_measure i name nM nW = some (p.next_measure_handle, p') ∧
      1 ≤ p.next_measure_handle ∧
      p'.next_measure_handle = p.next_measure_handle + 1 ∧
      (∀ reg' ∈ p.registries, ∀ q ∈ reg'.measures,
        q.1 < p.next_measure_handle) ∧
      (∀ reg' ∈ p.registries, ∀ q ∈ reg'.measures_by_name,
        q.2 < p.next_measure_handle) ∧
      ∃ reg2, p'.registries.get? i = some reg2 ∧
        lookupA reg2.measures_by_name name = some p.next_measure_handle := by
  have hinv := reachable_procInv hp
  have hfr := new_measure_fresh reg p.next_measure_handle name nM nW hfresh
  refine ⟨{ next_measure_handle := p.next_measure_handle + 1,
            registries := p.registries.set i
              { measures := (p.next_measure_handle,
                  MeasureInner.new name nM nW) :: reg.measures,
                measures_by_name :=
                  (name, p.next_measure_handle) :: reg.measures_by_name } },
    ?_, hinv.1, rfl, ?_, ?_, ?_⟩
  · simp only [ProcState.new_measure, hreg, hfr]
  · intro reg' hr' q hq
    exact ((hinv.2 reg' hr').1).1 q hq
  · intro reg' hr' q hq
    exact ((hinv.2 reg' hr').1).2 q hq
  · exact ⟨{ measures := (p.next_measure_handle,
                MeasureInner.new name nM nW) :: reg.measures,
             measures_by_name :=
               (name, p.next_measure_handle) :: reg.measures_by_name },
      List.get?_set_eq_of_lt _ (index_lt_of_get?_eq_some hreg),
      lookupA_cons_self _ _ _⟩

/-- C6 witness: allocating the fresh name "b" in the demo state returns the
counter value 2 and bumps the counter to 3. -/
theorem c6_handle_allocation_witness :
    ∃ p', demoProc.new_measure 0 "b" 7 7 =
        some (demoProc.next_measure_handle, p') ∧
      1 ≤ demoProc.next_measure_handle ∧
      p'.next_measure_handle = demoProc.next_measure_handle + 1 ∧
      (∀ reg' ∈ demoProc.registries, ∀ q ∈ reg'.measures,
        q.1 < demoProc.next_measure_handle) ∧
      (∀ reg' ∈ demoProc.registries, ∀ q ∈ reg'.measures_by_name,
        q.2 < demoProc.next_measure_handle) ∧
      ∃ reg2, p'.registries.get? 0 = some reg2 ∧
        lookupA reg2.measures_by_name "b" = some demoProc.next_measure_handle :=
  c6_handle_allocation demoProc ⟨1, demoSched, by rfl⟩ 0 "b" 7 7
    { measures := [(1, MeasureInner.new "a" 0 0)],
      measures_by_name := [("a", 1)] } (by rfl) (by decide)

end MeasureHealth
